import Mathlib

/-!
Shallow embedding of the `mpq` Go package (a read-only MPQ archive decoder).

The archive opener (`diveIn`), the directory lookup and the file assembler
(`FileByHash`) are translated from `mpq.go`.  Machine integers are modelled as
`Nat` with explicit `% 2^32` wraparound where the Go code computes in `uint32`.
The seekable byte source (`io.ReadSeeker`) is modelled as a byte list together
with a cursor position.  A Go runtime panic (out-of-range index, division by
zero) is a distinct outcome, and the unbounded probe loop of `FileByHash` is
run on fuel `hashTableEntries + 1`: after that many probes every slot has been
inspected once and the loop state repeats, so the Go loop runs forever; the
model then returns the distinct outcome `diverges`.

The string hasher, the crypt table, the stream cipher and the multi-codec
decompressor live in a source file that is not part of the given sources; they
are modelled from the specification (sections 4.1 - 4.3 and the decompressor
contract) and marked as such.
-/

namespace Mpq

/-- Modulus of Go `uint32` arithmetic. -/
def U32 : Nat := 4294967296

/-- Reduction to `uint32` range. -/
def u32 (n : Nat) : Nat := n % U32

/-- Go `uint32` addition (wrapping). -/
def u32add (a b : Nat) : Nat := (a + b) % U32

/-- Go `uint32` subtraction (wrapping). -/
def u32sub (a b : Nat) : Nat := (a % U32 + (U32 - b % U32)) % U32

/-- Go `uint32` multiplication (wrapping). -/
def u32mul (a b : Nat) : Nat := (a * b) % U32

/-- A seekable byte source: the bytes of the input and the read cursor.
This models the `io.ReadSeeker` fed to `New` / `NewFromFile`. -/
structure Input where
  data : List Nat
  pos : Nat
deriving Repr, DecidableEq

/-- Absolute seek (`Seek(off, 0)`); on byte readers and files a seek to any
non-negative offset succeeds, even past the end. -/
def seekTo (inp : Input) (off : Nat) : Input := ⟨inp.data, off⟩

/-- Cursor after a failed exhaustive read: the reader consumed everything it
had (a cursor already past the end stays put). -/
def readFail (inp : Input) : Input := ⟨inp.data, max inp.pos inp.data.length⟩

/-- `io.ReadFull` for `n` bytes: delivers exactly `n` bytes and advances the
cursor, or fails (`io.EOF` / `io.ErrUnexpectedEOF`) when fewer are available. -/
def readFull (inp : Input) (n : Nat) : Option (List Nat × Input) :=
  if inp.pos + n ≤ inp.data.length then
    some ((inp.data.drop inp.pos).take n, ⟨inp.data, inp.pos + n⟩)
  else none

/-- Little-endian value of a byte list. -/
def leVal : List Nat → Nat
  | [] => 0
  | b :: bs => b % 256 + 256 * leVal bs

/-- Group a byte list into little-endian 32-bit words (groups of four bytes;
a trailing fragment shorter than a word is dropped, as `binary.Read` would
fail on it). -/
def bytesToWords : List Nat → List Nat
  | b0 :: b1 :: b2 :: b3 :: rest =>
      (b0 % 256 + 256 * (b1 % 256) + 65536 * (b2 % 256) + 16777216 * (b3 % 256))
        :: bytesToWords rest
  | _ => []

/-- Serialize 32-bit words back to little-endian bytes. -/
def wordsToBytes : List Nat → List Nat
  | [] => []
  | w :: ws => w % 256 :: w / 256 % 256 :: w / 65536 % 256 :: w / 16777216 % 256
      :: wordsToBytes ws

/-- Modelled from the spec: one advance of the crypt-table seed,
`seed = (seed*125 + 3) mod 0x2AAAAB` (section 4.1; the source file holding
the crypt table is not among the given sources). -/
def cryptSeedStep (seed : Nat) : Nat := (seed * 125 + 3) % 0x2AAAAB

/-- Modelled from the spec: the five crypt-table values produced for one
index of the outer loop, together with the seed that remains.  Each value
packs two seed advances: upper 16 bits from the first, lower 16 from the
second (section 4.1). -/
def cryptRow : Nat → Nat → List Nat × Nat
  | 0, seed => ([], seed)
  | n + 1, seed =>
      let s1 := cryptSeedStep seed
      let hi := (s1 % 65536) * 65536
      let s2 := cryptSeedStep s1
      let lo := s2 % 65536
      let (vs, sOut) := cryptRow n s2
      ((hi + lo) :: vs, sOut)

/-- Modelled from the spec: the rows of the crypt table for indices
`0 .. n-1`, threading the seed through (section 4.1). -/
def cryptRows : Nat → Nat → List (List Nat)
  | 0, _ => []
  | n + 1, seed =>
      let (row, seed2) := cryptRow 5 seed
      row :: cryptRows n seed2

/-- Modelled from the spec: the crypt table as a lookup by flat position
`sub*256 + index`, built from seed `0x00100001` (section 4.1). -/
def cryptTableVal (p : Nat) : Nat :=
  (((cryptRows 256 0x00100001).getD (p % 256) []).getD (p / 256) 0)

/-- Modelled from the spec: a canonicalized path byte - forward slash becomes
backslash, lowercase ASCII becomes uppercase (section 4.2). -/
def canonChar (c : Nat) : Nat :=
  let b := c % 256
  if b = 47 then 92 else if 97 ≤ b ∧ b ≤ 122 then b - 32 else b

/-- Modelled from the spec: the per-character state update of the string
hasher (section 4.2), over the remaining bytes of the name. -/
def hashStringAux (hashType : Nat) : List Nat → Nat → Nat → Nat
  | [], seed1, _ => seed1
  | c :: cs, seed1, seed2 =>
      let ch := canonChar c
      let s1 := u32 (Nat.xor (cryptTableVal (hashType * 256 + ch)) (u32add seed1 seed2))
      let s2 := u32 (ch + s1 + seed2 + seed2 * 32 + 3)
      hashStringAux hashType cs s1 s2

/-- Modelled from the spec: the string hash of a name under a hash-type
ordinal, from initial state `(0x7FED7FED, 0xEEEEEEEE)` (section 4.2). -/
def hashString (s : List Nat) (hashType : Nat) : Nat :=
  hashStringAux hashType s 0x7FED7FED 0xEEEEEEEE

/-- Modelled from the spec: `FileNameHash` - the fingerprint triple of a
name, hash-type ordinals 0, 1 and 2 (section 4.2; the source file holding
this function is not among the given sources, only its caller is). -/
def fileNameHash (s : List Nat) : Nat × Nat × Nat :=
  (hashString s 0, hashString s 1, hashString s 2)

/-- Modelled from the spec: the stream cipher on a word sequence with running
key and seed (section 4.3); `decrypt buf key` in the source corresponds to
seed `0xEEEEEEEE` at entry. -/
def decryptWords (key seed : Nat) : List Nat → List Nat
  | [] => []
  | w :: ws =>
      let seed1 := u32add seed (cryptTableVal (1024 + key % 256))
      let x := u32 (Nat.xor (w % U32) (u32add key seed1))
      let key2 := u32 ((u32 ((U32 - 1 - key % U32) * 2097152) + 0x11111111) |||
        (key % U32 / 2048))
      let seed2 := u32 (x + seed1 + seed1 * 32 + 3)
      x :: decryptWords key2 seed2 ws

/-- Decryption of a 4-byte-aligned buffer, as bytes. -/
def decryptBytes (key : Nat) (bs : List Nat) : List Nat :=
  wordsToBytes (decryptWords key 0xEEEEEEEE (bytesToWords bs))

/-- Mask `beFlagFile`: the block is a file. -/
def beFlagFile : Nat := 0x80000000

/-- Mask `beFlagSingle`: the file is stored as a single unit. -/
def beFlagSingle : Nat := 0x01000000

/-- Mask `beFlagExtra`: the file has per-sector checksums. -/
def beFlagExtra : Nat := 0x04000000

/-- Mask `beFlagCompressed`: any compression bit. -/
def beFlagCompressed : Nat := 0x0000FF00

/-- Mask `beFlagPKWare`: PKWare implosion. -/
def beFlagPKWare : Nat := 0x00000100

/-- Mask `beFlagCompressedMulti`: multi-codec compression. -/
def beFlagCompressedMulti : Nat := 0x00000200

/-- Mask `beFlagEncrypted`: the file payload is encrypted. -/
def beFlagEncrypted : Nat := 0x00010000

/-- The user data section preceding the header. -/
structure UserData where
  size : Nat
  headerOffset : Nat
  data : List Nat
deriving Repr, DecidableEq

/-- The MPQ header, fields as read by `diveIn`. -/
structure Header where
  size : Nat
  archiveSize : Nat
  formatVersion : Nat
  sectorSizeShift : Nat
  hashTableOffset : Nat
  blockTableOffset : Nat
  hashTableEntries : Nat
  blockTableEntries : Nat
  extendedBlockTableOffset : Nat
  hashTableOffsetHigh : Nat
  blockTableOffsetHigh : Nat
deriving Repr, DecidableEq

/-- A hash table entry (16 bytes in the archive). -/
structure HashEntry where
  filePathHashA : Nat
  filePathHashB : Nat
  language : Nat
  platform : Nat
  fileBlockIndex : Nat
deriving Repr, DecidableEq

/-- A block table entry (16 bytes in the archive). -/
structure BlockEntry where
  blockOffset : Nat
  blockSize : Nat
  fileSize : Nat
  flags : Nat
deriving Repr, DecidableEq

instance : Inhabited BlockEntry := ⟨⟨0, 0, 0, 0⟩⟩

instance : Inhabited HashEntry := ⟨⟨0, 0, 0, 0, 0⟩⟩

/-- The parsed archive handle, the fields of the Go `MPQ` struct that survive
`diveIn` (the input source is threaded separately). -/
structure MPQState where
  userData : Option UserData
  header : Header
  hashTable : List HashEntry
  blockTable : List BlockEntry
  extBlockEntryHighOffsets : Option (List Nat)
  blockSize : Nat
  blockEntryIndices : List Nat
  filesCount : Nat
deriving Repr, DecidableEq

/-- Parse hash entries out of a decrypted word sequence, four words per
entry: hash A, hash B, language and platform packed in one word, block
index. -/
def parseHashEntries : List Nat → List HashEntry
  | w0 :: w1 :: w2 :: w3 :: rest =>
      ⟨w0, w1, w2 % 65536, w2 / 65536 % 65536, w3⟩ :: parseHashEntries rest
  | _ => []

/-- Parse block entries out of a decrypted word sequence, four words per
entry: block offset, block size, file size, flags. -/
def parseBlockEntries : List Nat → List BlockEntry
  | w0 :: w1 :: w2 :: w3 :: rest => ⟨w0, w1, w2, w3⟩ :: parseBlockEntries rest
  | _ => []

/-- The read loop for the extended block table: `n` iterations of
`err = binary.Read(r, ...)` on reader `r`, the error being overwritten each
iteration.  Returns the values (zero where a read failed, as the targets
stay zero-initialized), the final reader, and the success flag of the LAST
read (true when no iteration ran). -/
def readExtLoop : Input → Nat → List Nat × Input × Bool
  | r, 0 => ([], r, true)
  | r, n + 1 =>
      match readFull r 2 with
      | some (bs, r2) =>
          let (vs, r3, last) := readExtLoop r2 n
          (leVal bs :: vs, r3, if n = 0 then true else last)
      | none =>
          let (vs, r3, last) := readExtLoop (readFail r) n
          (0 :: vs, r3, if n = 0 then false else last)

/-- Error outcomes of `diveIn`: the raw error of a failed magic read
(`io.EOF` / `io.ErrUnexpectedEOF`, returned verbatim), or
`ErrInvalidArchive`. -/
inductive OpenErr
  | ioError
  | invalidArchive
deriving Repr, DecidableEq

deriving instance DecidableEq for Except

/-- Magic bytes of the user data section, `MPQ 0x1b`. -/
def userDataMagic : List Nat := [77, 80, 81, 27]

/-- Magic bytes of the header section, `MPQ 0x1a`. -/
def headerMagic : List Nat := [77, 80, 81, 26]

/-- The half of `diveIn` that runs after the header has been parsed: reads and
decrypts the hash and block tables, handles the extended block table, and
derives the file indices.  `headerOffset` is the archive origin. -/
def diveInTables (inp : Input) (u : Option UserData) (h : Header)
    (headerOffset : Nat) : Except OpenErr MPQState :=
  let blockSize := u32 (512 * 2 ^ h.sectorSizeShift)
  -- Read Hash table
  let inp := seekTo inp (h.hashTableOffsetHigh * 4294967296 + h.hashTableOffset + headerOffset)
  match readFull inp (u32mul h.hashTableEntries 16) with
  | none => .error .invalidArchive
  | some (htBytes, inp) =>
    let htParsed := parseHashEntries (decryptWords 0xc3af3770 0xEEEEEEEE (bytesToWords htBytes))
    let hashTable := htParsed.take h.hashTableEntries ++
      List.replicate (h.hashTableEntries - htParsed.length) default
    -- Read Block table
    let inp := seekTo inp (h.blockTableOffsetHigh * 4294967296 + h.blockTableOffset + headerOffset)
    match readFull inp (u32mul h.blockTableEntries 16) with
    | none => .error .invalidArchive
    | some (btBytes, inp) =>
      let btDec := decryptBytes 0xec83b3a3 btBytes
      let btParsed := parseBlockEntries (bytesToWords btDec)
      let blockTable := btParsed.take h.blockTableEntries ++
        List.replicate (h.blockTableEntries - btParsed.length) default
      -- r is the in-memory reader over the block table buffer; the parse
      -- loop has consumed it entirely.
      let r : Input := ⟨btDec, btDec.length⟩
      let extStep : Except OpenErr (Option (List Nat)) :=
        if h.extendedBlockTableOffset > 0 then
          -- The input is sought to the extended table, but the read loop
          -- reads from r (the exhausted table reader), not from the input.
          let _ := seekTo inp (h.extendedBlockTableOffset + headerOffset)
          let (vs, _, ok) := readExtLoop r h.blockTableEntries
          if ok then .ok (some vs) else .error .invalidArchive
        else .ok none
      match extStep with
      | .error e => .error e
      | .ok extHigh =>
        -- Count valid files in the archive
        let fileIdxs := (List.range h.blockTableEntries).filter
          (fun i => (blockTable.getD i default).flags &&& beFlagFile ≠ 0)
        let blockEntryIndices := fileIdxs ++
          List.replicate (h.blockTableEntries - fileIdxs.length) 0
        .ok { userData := u
              header := h
              hashTable := hashTable
              blockTable := blockTable
              extBlockEntryHighOffsets := extHigh
              blockSize := blockSize
              blockEntryIndices := blockEntryIndices
              filesCount := fileIdxs.length }

/-- Parse the header fields (and the Burning Crusade extension when
`formatVersion > 0`), then continue with the tables. -/
def diveInHeader (inp : Input) (u : Option UserData) (headerOffset : Nat) :
    Except OpenErr MPQState :=
  match readFull inp 4 with
  | none => .error .invalidArchive
  | some (szB, inp) =>
  match readFull inp 4 with
  | none => .error .invalidArchive
  | some (asB, inp) =>
  match readFull inp 2 with
  | none => .error .invalidArchive
  | some (fvB, inp) =>
  match readFull inp 2 with
  | none => .error .invalidArchive
  | some (ssB, inp) =>
  match readFull inp 4 with
  | none => .error .invalidArchive
  | some (htoB, inp) =>
  match readFull inp 4 with
  | none => .error .invalidArchive
  | some (btoB, inp) =>
  match readFull inp 4 with
  | none => .error .invalidArchive
  | some (hteB, inp) =>
  match readFull inp 4 with
  | none => .error .invalidArchive
  | some (bteB, inp) =>
    let h0 : Header := ⟨leVal szB, leVal asB, leVal fvB, leVal ssB, leVal htoB,
      leVal btoB, leVal hteB, leVal bteB, 0, 0, 0⟩
    if leVal fvB > 0 then
      match readFull inp 8 with
      | none => .error .invalidArchive
      | some (extB, inp) =>
      match readFull inp 2 with
      | none => .error .invalidArchive
      | some (hthB, inp) =>
      match readFull inp 2 with
      | none => .error .invalidArchive
      | some (bthB, inp) =>
        diveInTables inp u { h0 with
          extendedBlockTableOffset := leVal extB
          hashTableOffsetHigh := leVal hthB
          blockTableOffsetHigh := leVal bthB } headerOffset
    else diveInTables inp u h0 headerOffset

/-- The archive opener `diveIn`: magic detection, optional user data section,
header parse, then the table phase.  A failed read of either magic returns
the raw read error; later failures return `ErrInvalidArchive`. -/
def diveIn (inp : Input) : Except OpenErr MPQState :=
  match readFull inp 4 with
  | none => .error .ioError
  | some (magic, inp) =>
    if magic = userDataMagic then
      match readFull inp 4 with
      | none => .error .invalidArchive
      | some (szB, inp) =>
        match readFull inp 4 with
        | none => .error .invalidArchive
        | some (hoB, inp) =>
          let usize := leVal szB
          let hoff := leVal hoB
          match readFull inp usize with
          | none => .error .invalidArchive
          | some (udata, inp) =>
            let u : UserData := ⟨usize, hoff, udata⟩
            let inp := seekTo inp hoff
            match readFull inp 4 with
            | none => .error .ioError
            | some (magic2, inp) =>
              if magic2 = headerMagic then diveInHeader inp (some u) hoff
              else .error .invalidArchive
    else if magic = headerMagic then diveInHeader inp none 0
    else .error .invalidArchive

/-- Outcome of the probe loop of `FileByHash`. -/
inductive ProbeResult
  | empty
  | found (e : HashEntry)
  | goPanic
  | diverges
deriving Repr, DecidableEq

/-- The probe loop of `FileByHash` (`for i := h1 & (hashTableEntries-1); ; i++`)
on fuel.  One iteration: wrap `i` when it equals `hashTableEntries`, index the
hash table (out of range is a Go panic), stop on an always-empty entry
(`0xffffffff`), skip on a fingerprint mismatch, otherwise report the match.
The Go loop has no other exit: when `fuel = N + 1` probes all decline, the
probes have visited every reachable slot and the loop state recurs, so the Go
loop runs forever and the model reports `diverges`. -/
def probeLoop (ht : List HashEntry) (N h2 h3 : Nat) : Nat → Nat → ProbeResult
  | 0, _ => .diverges
  | fuel + 1, i =>
      let j := if i = N then 0 else i
      match ht.get? j with
      | none => .goPanic
      | some e =>
          if e.fileBlockIndex = 4294967295 then .empty
          else if e.filePathHashA ≠ h2 ∨ e.filePathHashB ≠ h3 then
            probeLoop ht N h2 h3 fuel (j + 1)
          else .found e

/-- The probe of `FileByHash` for a fingerprint: start slot `h1 & (N - 1)`
(`uint32` subtraction), fuel `N + 1`. -/
def probe (m : MPQState) (h1 h2 h3 : Nat) : ProbeResult :=
  let N := m.header.hashTableEntries
  probeLoop m.hashTable N h2 h3 (N + 1) (Nat.land h1 (u32sub N 1))

/-- Number of block entries before position `n` whose file flag is clear -
the `counter` loop of `FileByHash`. -/
def nonFileCountBelow (m : MPQState) (n : Nat) : Nat :=
  ((m.blockTable.take n).filter fun b => b.flags &&& beFlagFile = 0).length

/-- The file ordinal a matched hash entry resolves to:
`fileBlockIndex - counter`. -/
def fileOrdinal (m : MPQState) (fbi : Nat) : Nat :=
  fbi - nonFileCountBelow m fbi

/-- Outcome of the directory-lookup phase of `FileByHash`. -/
inductive LookupResult
  | notFound
  | found (bei : Nat) (be : BlockEntry)
  | goPanic
  | diverges
deriving Repr, DecidableEq

/-- The directory lookup of `FileByHash`: probe, then translate the matched
entry through the file-ordinal space.  The `counter` loop walks
`blockTable[j]` for `j < fileBlockIndex` and panics when `fileBlockIndex`
exceeds the table length; `fileIndex >= filesCount` yields not-found;
otherwise the raw block index comes from `blockEntryIndices` and selects the
block entry. -/
def resolve (m : MPQState) (h1 h2 h3 : Nat) : LookupResult :=
  match probe m h1 h2 h3 with
  | .empty => .notFound
  | .goPanic => .goPanic
  | .diverges => .diverges
  | .found e =>
      if m.blockTable.length < e.fileBlockIndex then .goPanic
      else
        let fileIndex := fileOrdinal m e.fileBlockIndex
        if fileIndex ≥ m.filesCount then .notFound
        else
          match m.blockEntryIndices.get? fileIndex with
          | none => .goPanic
          | some bei =>
              match m.blockTable.get? bei with
              | none => .goPanic
              | some be => .found bei be

/-- Error results of `FileByHash`: `ErrInvalidArchive`, or the error value
returned verbatim from `decompressMulti`. -/
inductive FErr
  | invalidArchive
  | decompressErr
deriving Repr, DecidableEq

/-- Full outcome of `FileByHash`: the assembled content with a nil error, the
not-found result (nil slice, nil error), an error, a Go runtime panic, or
divergence of the probe loop. -/
inductive FOutcome
  | content (bs : List Nat)
  | notFound
  | failed (e : FErr)
  | goPanic
  | diverges
deriving Repr, DecidableEq

/-- The user-data contribution to the block offset base
(`m.userData.headerOffset` when the section is present). -/
def userOff (m : MPQState) : Nat :=
  match m.userData with
  | none => 0
  | some u => u.headerOffset

/-- `blockOffsetBase`: block offset, plus the extended high offset shifted by
32 when the extended table is present (indexing it out of range is a Go
panic, reported as `none`), plus the user-data header offset. -/
def extBase (m : MPQState) (bei : Nat) (be : BlockEntry) : Option Nat :=
  match m.extBlockEntryHighOffsets with
  | none => some (be.blockOffset + userOff m)
  | some ext =>
      match ext.get? bei with
      | none => none
      | some hi => some (be.blockOffset + hi * 4294967296 + userOff m)

/-- `blocksCount`: 1 for a single-unit file, otherwise
`(fileSize + blockSize - 1) / blockSize` in `uint32` arithmetic.  (Division
by zero, a Go panic, is guarded separately in `fileByHash`; Lean division by
zero yields 0 here.) -/
def blocksCountOf (m : MPQState) (be : BlockEntry) : Nat :=
  if be.flags &&& beFlagSingle ≠ 0 then 1
  else u32sub (u32add be.fileSize m.blockSize) 1 / m.blockSize

/-- The unpacked size of sector `k` of `bc`: the whole file for a single-unit
file, a full logical sector for an interior sector, and
`fileSize - blockSize*k` (`uint32` arithmetic) for the last one. -/
def unpackedSizeAt (m : MPQState) (be : BlockEntry) (bc k : Nat) : Nat :=
  if be.flags &&& beFlagSingle ≠ 0 then be.fileSize
  else if k < bc - 1 then m.blockSize
  else u32sub be.fileSize (u32mul m.blockSize k)

/-- The sum of the unpacked sizes over all sectors of a block entry. -/
def unpackedTotal (m : MPQState) (be : BlockEntry) : Nat :=
  ((List.range (blocksCountOf m be)).map
    (unpackedSizeAt m be (blocksCountOf m be))).sum

/-- Length of the packed block offset table: `blocksCount + 1`, plus one when
the per-sector-checksum flag is set (`uint32` increments). -/
def pboLen (m : MPQState) (be : BlockEntry) : Nat :=
  let t := u32add (blocksCountOf m be) 1
  if be.flags &&& beFlagExtra ≠ 0 then u32add t 1 else t

/-- The synthesized packed offset table for an uncompressed multi-sector
file: `pbo[k] = k * blockSize` for `k < blocksCount`,
`pbo[blocksCount] = blockEntry.blockSize`, remaining slots zero. -/
def synthPboMulti (m : MPQState) (be : BlockEntry) (bc temp : Nat) : List Nat :=
  (List.range bc).map (fun k => u32mul k m.blockSize) ++
    be.blockSize :: List.replicate (temp - bc - 1) 0

/-- The synthesized packed offset table for a single-unit file:
`pbo = [0, blockEntry.blockSize]`, remaining slots zero. -/
def synthPboSingle (be : BlockEntry) (temp : Nat) : List Nat :=
  0 :: be.blockSize :: List.replicate (temp - 2) 0

/-- Go `copy(dst[start:], src)` on lists: overwrite from `start`, truncated
at the end of `dst`; the result always keeps the length of `dst`. -/
def listCopy (dst : List Nat) (start : Nat) (src : List Nat) : List Nat :=
  dst.take start ++ src.take (dst.length - start) ++
    dst.drop (start + min src.length (dst.length - start))

/-- The sector loop of `FileByHash`, one recursion step per remaining sector
(`k = bc - remaining`): compute the unpacked size, fetch the packed offsets
(out of range is a Go panic), seek and read the packed sector, then check the
encrypted flag (`ErrInvalidArchive`), dispatch multi-codec decompression
(`dm`, its error returned verbatim), reject PKWare implosion
(`ErrInvalidArchive`), or copy the sector verbatim.  Slice-bound violations
on the output buffer are Go panics.  The state `m` is threaded through and
returned untouched. -/
def assembleLoop (dm : Nat → List Nat → Option (List Nat)) (m : MPQState)
    (be : BlockEntry) (pbo : List Nat) (base bc : Nat) :
    Nat → Nat → List Nat → Input → FOutcome × Input × MPQState
  | 0, _, content, inp => (.content content, inp, m)
  | remaining + 1, ci, content, inp =>
      let k := bc - (remaining + 1)
      let us := unpackedSizeAt m be bc k
      match pbo.get? k, pbo.get? (k + 1) with
      | some cur, some nxt =>
          let inSize := u32sub nxt cur
          let inp1 := seekTo inp (base + cur)
          match readFull inp1 inSize with
          | none => (.failed .invalidArchive, readFail inp1, m)
          | some (inBuffer, inp2) =>
              if be.flags &&& beFlagEncrypted ≠ 0 then
                (.failed .invalidArchive, inp2, m)
              else if be.flags &&& beFlagCompressedMulti ≠ 0 then
                let hi := u32add ci us
                if hi < ci ∨ content.length < hi then (.goPanic, inp2, m)
                else
                  match dm us inBuffer with
                  | none => (.failed .decompressErr, inp2, m)
                  | some out =>
                      assembleLoop dm m be pbo base bc remaining (u32add ci us)
                        (listCopy content ci ((out ++ List.replicate us 0).take us))
                        inp2
              else if be.flags &&& beFlagPKWare ≠ 0 then
                (.failed .invalidArchive, inp2, m)
              else
                if content.length < ci then (.goPanic, inp2, m)
                else
                  assembleLoop dm m be pbo base bc remaining (u32add ci us)
                    (listCopy content ci inBuffer) inp2
      | _, _ => (.goPanic, inp, m)

/-- `FileByHash`, parametrized by the multi-codec decompressor `dm` (whose
source file is not among the given sources; per the spec contract it either
produces the bytes for a destination of the given length or fails).  The
lookup resolves the fingerprint; a found block entry is then assembled: the
offset base, the sector count (division by zero on a zero sector size is a Go
panic), the packed offset table - read from the input (short read is
`ErrInvalidArchive`, the encrypted flag on it is `ErrInvalidArchive`) when
the file is compressed and multi-sector, synthesized otherwise (slot writes
out of range are Go panics) - and finally the sector loop over a
zero-initialized output of length `fileSize`.  The parsed state is returned
alongside the outcome and the input cursor. -/
def fileByHash (dm : Nat → List Nat → Option (List Nat)) (m : MPQState)
    (inp : Input) (h1 h2 h3 : Nat) : FOutcome × Input × MPQState :=
  match resolve m h1 h2 h3 with
  | .notFound => (.notFound, inp, m)
  | .goPanic => (.goPanic, inp, m)
  | .diverges => (.diverges, inp, m)
  | .found bei be =>
      match extBase m bei be with
      | none => (.goPanic, inp, m)
      | some base =>
          if be.flags &&& beFlagSingle = 0 ∧ m.blockSize = 0 then (.goPanic, inp, m)
          else
            let bc := blocksCountOf m be
            let temp := pboLen m be
            let content0 : List Nat := List.replicate be.fileSize 0
            if be.flags &&& beFlagCompressed ≠ 0 ∧ be.flags &&& beFlagSingle = 0 then
              let inp1 := seekTo inp base
              match readFull inp1 (temp * 4) with
              | none => (.failed .invalidArchive, readFail inp1, m)
              | some (bs, inp2) =>
                  if be.flags &&& beFlagEncrypted ≠ 0 then
                    (.failed .invalidArchive, inp2, m)
                  else
                    assembleLoop dm m be (bytesToWords bs) base bc bc 0 content0 inp2
            else
              if be.flags &&& beFlagSingle = 0 then
                if temp ≤ bc then (.goPanic, inp, m)
                else
                  assembleLoop dm m be (synthPboMulti m be bc temp) base bc bc 0
                    content0 inp
              else
                assembleLoop dm m be (synthPboSingle be temp) base bc bc 0
                  content0 inp

/-- `FileByName`: hash the name and delegate to `FileByHash`
(`m.FileByHash(FileNameHash(name))`). -/
def fileByName (dm : Nat → List Nat → Option (List Nat)) (m : MPQState)
    (inp : Input) (name : List Nat) : FOutcome × Input × MPQState :=
  fileByHash dm m inp (fileNameHash name).1 (fileNameHash name).2.1
    (fileNameHash name).2.2

/-- A trivial multi-codec decompressor instance used for concrete
evaluations: it emits a zero buffer of the requested length. -/
def dmZero : Nat → List Nat → Option (List Nat) := fun n _ => some (List.replicate n 0)

/-- A header whose hash-table entry count is `n` (the remaining fields do
not influence the lookup phase). -/
def hdrWith (n : Nat) : Header := ⟨44, 0, 0, 3, 0, 0, n, 1, 0, 0, 0⟩

/-- A parsed archive state assembled from a hash table, a block table, a
sector size, the file indices and the file count. -/
def mkArchive (ht : List HashEntry) (bt : List BlockEntry) (bs : Nat)
    (idxs : List Nat) (fc : Nat) : MPQState :=
  { userData := none
    header := hdrWith ht.length
    hashTable := ht
    blockTable := bt
    extBlockEntryHighOffsets := none
    blockSize := bs
    blockEntryIndices := idxs
    filesCount := fc }

/-- A one-slot hash table that is fully occupied by an entry that matches no
fingerprint with hashes `(5, 6)`. -/
def c1Table : List HashEntry := [⟨1, 1, 0, 0, 0⟩]

/-- Archive whose hash table is `c1Table`: fully occupied, no empty slot. -/
def mFull : MPQState := mkArchive c1Table [⟨0, 0, 0, beFlagFile⟩] 4096 [0] 1

/-- Archive with a two-slot hash table, fully occupied by one live and one
deleted entry, neither matching fingerprint hashes `(5, 6)`. -/
def mFull2 : MPQState :=
  mkArchive [⟨1, 1, 0, 0, 0⟩, ⟨4, 4, 0, 0, 4294967294⟩] [⟨0, 0, 0, beFlagFile⟩] 4096 [0] 1

/-- A single-unit encrypted file block. -/
def beEnc : BlockEntry := ⟨0, 4, 4, 0x81010000⟩

/-- Archive holding one encrypted single-unit file under hashes `(2, 3)`. -/
def mEnc : MPQState := mkArchive [⟨2, 3, 0, 0, 0⟩] [beEnc] 4096 [0] 1

/-- A single-unit PKWare-imploded file block. -/
def bePk : BlockEntry := ⟨0, 4, 4, 0x81000100⟩

/-- Archive holding one PKWare-imploded single-unit file under hashes
`(2, 3)`. -/
def mPk : MPQState := mkArchive [⟨2, 3, 0, 0, 0⟩] [bePk] 4096 [0] 1

/-- Archive whose only hash entry stores a `fileBlockIndex` of 5 while the
block table has a single entry. -/
def mBounds : MPQState := mkArchive [⟨2, 3, 0, 0, 5⟩] [⟨0, 0, 0, beFlagFile⟩] 4096 [0] 1

/-- A single-unit stored file block of three bytes at archive offset 9. -/
def beOrd : BlockEntry := ⟨9, 3, 3, 0x81000000⟩

/-- Archive where the matched `fileBlockIndex` 1 sits behind one non-file
block entry, exercising the ordinal translation. -/
def mOrd : MPQState := mkArchive [⟨2, 3, 0, 0, 1⟩] [⟨0, 0, 0, 0⟩, beOrd] 4096 [1, 0] 1

/-- Archive whose single hash slot is always-empty (`0xffffffff`). -/
def mEmptySlot : MPQState := mkArchive [⟨0, 0, 0, 0, 4294967295⟩] [] 4096 [] 0

/-- Archive whose single hash slot is a deleted entry (`0xfffffffe`) that
still stores the fingerprint hashes `(5, 6)`. -/
def mDel : MPQState := mkArchive [⟨5, 6, 0, 0, 4294967294⟩] [] 4096 [] 0

/-- A multi-sector file block whose `fileSize` is `2^32 - 1`, overflowing the
`uint32` sector-count computation. -/
def beOvf : BlockEntry := ⟨0, 10, 4294967295, beFlagFile⟩

/-- Archive state with 4096-byte sectors (only the sector size matters for
the sector-layout computation). -/
def mOvf : MPQState := mkArchive [] [] 4096 [] 0

/-- Archive state with 4-byte sectors. -/
def mSum : MPQState := mkArchive [] [] 4 [] 0

/-- A five-byte multi-sector file block (packed size five). -/
def beSum : BlockEntry := ⟨0, 5, 5, beFlagFile⟩

/-- A single-unit stored three-byte file block. -/
def beSingle : BlockEntry := ⟨0, 3, 3, 0x81000000⟩

/-- Archive holding `beSingle` under hashes `(2, 3)`. -/
def mSingle : MPQState := mkArchive [⟨2, 3, 0, 0, 0⟩] [beSingle] 4096 [0] 1

/-- Bytes of a format-version-1 archive: 44-byte header, one hash entry at
offset 44, one block entry at offset 60, extended block table offset 76, and
the two extended-table bytes present at offset 76. -/
def c3Data : List Nat := headerMagic ++
  [44,0,0,0] ++ [78,0,0,0] ++ [1,0] ++ [3,0] ++ [44,0,0,0] ++ [60,0,0,0] ++
  [1,0,0,0] ++ [1,0,0,0] ++ [76,0,0,0,0,0,0,0] ++ [0,0] ++ [0,0] ++
  List.replicate 16 0 ++ List.replicate 16 0 ++ [5,0]

/-! ## Helper lemmas -/

theorem listCopy_length (dst : List Nat) (start : Nat) (src : List Nat) :
    (listCopy dst start src).length = dst.length := by
  simp only [listCopy, List.length_append, List.length_take, List.length_drop]
  omega

theorem readFull_length {inp : Input} {n : Nat} {bs : List Nat} {inp2 : Input}
    (h : readFull inp n = some (bs, inp2)) : bs.length = n := by
  unfold readFull at h
  split at h
  · rename_i hle
    injection h with h
    injection h with h1 h2
    subst h1
    simp only [List.length_take, List.length_drop]
    omega
  · exact absurd h (by simp)

theorem bytesToWords_length (l : List Nat) :
    (bytesToWords l).length = l.length / 4 := by
  induction l using bytesToWords.induct with
  | case1 b0 b1 b2 b3 rest ih =>
      rw [bytesToWords]
      simp only [List.length_cons, ih]
      omega
  | case2 l h =>
      match l, h with
      | [], _ => simp [show bytesToWords [] = [] from rfl]
      | [a], _ => simp [show bytesToWords [a] = [] from rfl]
      | [a, b], _ => simp [show bytesToWords [a, b] = [] from rfl]
      | [a, b, c], _ => simp [show bytesToWords [a, b, c] = [] from rfl]
      | b0 :: b1 :: b2 :: b3 :: rest, h => exact absurd rfl (h b0 b1 b2 b3 rest)

theorem synthPboMulti_length (m : MPQState) (be : BlockEntry) (bc temp : Nat)
    (h : bc < temp) : (synthPboMulti m be bc temp).length = temp := by
  simp only [synthPboMulti, List.length_append, List.length_map,
    List.length_range, List.length_cons, List.length_replicate]
  omega

theorem synthPboSingle_length (be : BlockEntry) (temp : Nat) (h : 2 ≤ temp) :
    (synthPboSingle be temp).length = temp := by
  simp only [synthPboSingle, List.length_cons, List.length_replicate]
  omega

theorem assembleLoop_state (dm : Nat → List Nat → Option (List Nat))
    (m : MPQState) (be : BlockEntry) (pbo : List Nat) (base bc : Nat) :
    ∀ r ci content inp,
      (assembleLoop dm m be pbo base bc r ci content inp).2.2 = m := by
  intro r
  induction r with
  | zero => intro ci content inp; rfl
  | succ n ih =>
      intro ci content inp
      unfold assembleLoop
      dsimp only
      repeat' split
      all_goals first | rfl | apply ih

theorem assembleLoop_content_length (dm : Nat → List Nat → Option (List Nat))
    (m : MPQState) (be : BlockEntry) (pbo : List Nat) (base bc : Nat) :
    ∀ r ci content inp cs,
      (assembleLoop dm m be pbo base bc r ci content inp).1 = .content cs →
      cs.length = content.length := by
  intro r
  induction r with
  | zero =>
      intro ci content inp cs h
      injection h with h
      rw [← h]
  | succ n ih =>
      intro ci content inp cs h
      unfold assembleLoop at h
      dsimp only at h
      repeat' split at h
      all_goals first
        | (exact absurd h (by simp))
        | (rw [ih _ _ _ _ h, listCopy_length])

/-! ## Claim theorems -/

/-- C9.  A call to `FileByHash` (and hence `FileByName`) leaves the parsed
archive state - header, hash table, block table, extended high-offset
vector, file indices, file count, sector size - unchanged on every path:
success, not-found, error, panic or divergence.  Only the input cursor
moves. -/
theorem fileByHash_preserves_state (dm : Nat → List Nat → Option (List Nat))
    (m : MPQState) (inp : Input) (h1 h2 h3 : Nat) :
    (fileByHash dm m inp h1 h2 h3).2.2 = m := by
  unfold fileByHash
  dsimp only
  repeat' split
  all_goals first | rfl | apply assembleLoop_state

/-- C10.  Whenever `FileByHash` returns content with a nil error, the length
of the returned byte slice equals the `fileSize` field of the block entry
the fingerprint resolved to, independently of `blockSize` and of how many
bytes the sector reads delivered. -/
theorem fileByHash_content_length (dm : Nat → List Nat → Option (List Nat))
    (m : MPQState) (inp : Input) (h1 h2 h3 : Nat) (bei : Nat) (be : BlockEntry)
    (cs : List Nat) (hres : resolve m h1 h2 h3 = .found bei be)
    (hout : (fileByHash dm m inp h1 h2 h3).1 = .content cs) :
    cs.length = be.fileSize := by
  unfold fileByHash at hout
  rw [hres] at hout
  dsimp only at hout
  repeat' split at hout
  all_goals first
    | (exact absurd hout (by simp))
    | (rw [assembleLoop_content_length _ _ _ _ _ _ _ _ _ _ _ hout, List.length_replicate])

/-- Witness for C10: a concrete single-unit stored file of three bytes is
returned with length equal to its `fileSize`. -/
theorem fileByHash_content_length_witness :
    ([7, 8, 9] : List Nat).length = beSingle.fileSize :=
  fileByHash_content_length dmZero mSingle ⟨[7, 8, 9], 0⟩ 0 2 3 0 beSingle
    [7, 8, 9] (by decide) (by decide)

/-- C1.  The directory probe of `FileByHash` does NOT terminate after
`hashTableEntries` probes: on an archive whose hash table is fully occupied
by entries that neither match the fingerprint nor are always-empty, the Go
loop never exits.  In the model, `probeLoop` reports `diverges` for every
fuel value on such a table (both reachable loop indices), and the whole
lookup reports `diverges` instead of the not-found result the claim
requires. -/
theorem probe_loop_diverges_on_full_table :
    (∀ fuel, probeLoop c1Table 1 5 6 fuel 0 = .diverges ∧
             probeLoop c1Table 1 5 6 fuel 1 = .diverges) ∧
    resolve mFull 0 5 6 = .diverges := by
  constructor
  · intro fuel
    induction fuel with
    | zero => exact ⟨rfl, rfl⟩
    | succ n ih =>
        refine ⟨?_, ?_⟩
        · show probeLoop c1Table 1 5 6 n 1 = .diverges
          exact ih.2
        · show probeLoop c1Table 1 5 6 n 1 = .diverges
          exact ih.2
  · decide

/-- C6.  A hash-table entry whose `fileBlockIndex` is the deleted sentinel
`0xFFFFFFFE` is NOT skipped when its stored path hashes equal the
fingerprint: the probe accepts it as the match, and the subsequent
block-count loop then indexes the block table out of range (a Go runtime
panic). -/
theorem deleted_entry_accepted_as_match :
    probe mDel 0 5 6 = .found ⟨5, 6, 0, 0, 4294967294⟩ ∧
    resolve mDel 0 5 6 = .goPanic := by decide

/-- C3.  Opening an archive whose header has `extendedBlockTableOffset > 0`
fails with `ErrInvalidArchive` even though the input supplies the
`blockTableEntries` little-endian u16 values at that offset: the read loop
draws from the exhausted in-memory block-table reader instead of the input,
so every read errors and `diveIn` rejects the archive. -/
theorem ext_block_table_open_fails :
    diveIn ⟨c3Data, 0⟩ = .error .invalidArchive := by decide

/-- C7 counterexample.  The empty input is shorter than the four magic
bytes, yet `diveIn` does not fail with `ErrInvalidArchive`: it returns the
raw read error of the magic read. -/
theorem short_input_not_invalid_archive :
    diveIn ⟨[], 0⟩ ≠ .error .invalidArchive ∧
    diveIn ⟨[], 0⟩ = .error .ioError := by decide

/-- C7 (amended).  For every input with fewer than four bytes available at
the cursor, opening fails with the raw I/O read error (`io.EOF` or
`io.ErrUnexpectedEOF` returned verbatim), not with `ErrInvalidArchive`. -/
theorem short_input_io_error (inp : Input)
    (h : inp.data.length < inp.pos + 4) : diveIn inp = .error .ioError := by
  have hrf : readFull inp 4 = none := by
    unfold readFull
    rw [if_neg (by omega)]
  unfold diveIn
  rw [hrf]

/-- Witness for C7: a two-byte input is rejected with the raw read error. -/
theorem short_input_io_error_witness :
    (⟨[77, 80], 0⟩ : Input).data.length < (⟨[77, 80], 0⟩ : Input).pos + 4 ∧
    diveIn ⟨[77, 80], 0⟩ = .error .ioError :=
  ⟨by decide, short_input_io_error ⟨[77, 80], 0⟩ (by decide)⟩

/-- C5 counterexample.  On an archive whose hash table is fully occupied and
matches nothing, `FileByHash` does not return the absent result with a nil
error: no entry matches the fingerprint, yet the lookup diverges instead of
returning not-found. -/
theorem full_table_lookup_not_nil_nil :
    (mFull2.hashTable.all
      (fun e => !(e.filePathHashA == 5 && e.filePathHashB == 6))) = true ∧
    (fileByHash dmZero mFull2 ⟨[], 0⟩ 0 5 6).1 = .diverges ∧
    fileByHash dmZero mFull2 ⟨[], 0⟩ 0 5 6 ≠ (.notFound, ⟨[], 0⟩, mFull2) := by
  decide

/-- C5 (amended).  Whenever the probe terminates on an always-empty slot
before any fingerprint match, or the match resolves (with an in-range
`fileBlockIndex`) to a file ordinal at or beyond the file count,
`FileByHash` returns the absent result together with a nil error and the
untouched state; and `FileByName` is exactly `FileByHash` after hashing the
name. -/
theorem fileByHash_absent_nil_nil (dm : Nat → List Nat → Option (List Nat))
    (m : MPQState) (inp : Input) (h1 h2 h3 : Nat)
    (h : probe m h1 h2 h3 = .empty ∨
      ∃ e, probe m h1 h2 h3 = .found e ∧ e.fileBlockIndex ≤ m.blockTable.length ∧
        m.filesCount ≤ fileOrdinal m e.fileBlockIndex) :
    fileByHash dm m inp h1 h2 h3 = (.notFound, inp, m) ∧
    ∀ name, fileByName dm m inp name =
      fileByHash dm m inp (fileNameHash name).1 (fileNameHash name).2.1
        (fileNameHash name).2.2 := by
  have hres : resolve m h1 h2 h3 = .notFound := by
    unfold resolve
    rcases h with he | ⟨e, hf, hle, hord⟩
    · rw [he]
    · rw [hf]
      dsimp only
      rw [if_neg (not_lt.mpr hle), if_pos hord]
  constructor
  · unfold fileByHash
    rw [hres]
  · intro name
    rfl

/-- Witness for C5: on an archive whose single hash slot is always-empty,
the lookup returns the absent result and the unchanged state. -/
theorem fileByHash_absent_nil_nil_witness :
    fileByHash dmZero mEmptySlot ⟨[], 0⟩ 0 5 6 = (.notFound, ⟨[], 0⟩, mEmptySlot) :=
  (fileByHash_absent_nil_nil dmZero mEmptySlot ⟨[], 0⟩ 0 5 6 (Or.inl (by decide))).1

/-- C4 counterexample.  A matched hash entry whose `fileBlockIndex` (5)
exceeds the block-table length makes the counting loop index the block table
out of range: the lookup panics, where the claimed resolution - whose
ordinal is at or beyond `filesCount` - prescribes the not-found result. -/
theorem out_of_range_block_index_panics :
    probe mBounds 0 2 3 = .found ⟨2, 3, 0, 0, 5⟩ ∧
    mBounds.filesCount ≤ fileOrdinal mBounds 5 ∧
    resolve mBounds 0 2 3 = .goPanic ∧
    resolve mBounds 0 2 3 ≠ .notFound := by decide

/-- C4 (amended).  On a hash-table match whose `fileBlockIndex` does not
exceed the block-table length, and with well-formed file indices, the lookup
resolves exactly as claimed: the file ordinal is `fileBlockIndex` minus the
count of non-file entries before it; an ordinal at or beyond `filesCount`
yields not-found, and otherwise the raw block index is
`blockEntryIndices[ordinal]` and its block entry is selected. -/
theorem ordinal_translation (m : MPQState) (h1 h2 h3 : Nat) (e : HashEntry)
    (hp : probe m h1 h2 h3 = .found e)
    (hle : e.fileBlockIndex ≤ m.blockTable.length)
    (hwf1 : m.filesCount ≤ m.blockEntryIndices.length)
    (hwf2 : ∀ i ∈ m.blockEntryIndices, i < m.blockTable.length) :
    (m.filesCount ≤ fileOrdinal m e.fileBlockIndex →
      resolve m h1 h2 h3 = .notFound) ∧
    (fileOrdinal m e.fileBlockIndex < m.filesCount →
      ∃ raw, m.blockEntryIndices.get? (fileOrdinal m e.fileBlockIndex) = some raw ∧
        resolve m h1 h2 h3 = .found raw (m.blockTable.getD raw default)) := by
  unfold resolve
  rw [hp]
  dsimp only
  rw [if_neg (not_lt.mpr hle)]
  constructor
  · intro hord
    rw [if_pos hord]
  · intro hord
    rw [if_neg (not_le.mpr hord)]
    have hlt : fileOrdinal m e.fileBlockIndex < m.blockEntryIndices.length :=
      lt_of_lt_of_le hord hwf1
    obtain ⟨raw, hraw⟩ : ∃ raw,
        m.blockEntryIndices.get? (fileOrdinal m e.fileBlockIndex) = some raw :=
      ⟨_, List.get?_eq_get hlt⟩
    refine ⟨raw, hraw, ?_⟩
    rw [hraw]
    dsimp only
    have hrawlt : raw < m.blockTable.length := hwf2 raw (List.get?_mem hraw)
    obtain ⟨bval, hbval⟩ : ∃ b, m.blockTable.get? raw = some b :=
      ⟨_, List.get?_eq_get hrawlt⟩
    rw [hbval]
    dsimp only
    have hgd : m.blockTable.getD raw default = bval := by
      have hb2 : m.blockTable[raw]? = some bval := by
        rw [← List.get?_eq_getElem?]
        exact hbval
      simp [List.getD, hb2]
    rw [hgd]

/-- Witness for C4: a matched `fileBlockIndex` of 1 behind one non-file
entry resolves to ordinal 0, raw block index 1, and that block entry. -/
theorem ordinal_translation_witness :
    ∃ raw, mOrd.blockEntryIndices.get? (fileOrdinal mOrd 1) = some raw ∧
      resolve mOrd 0 2 3 = .found raw (mOrd.blockTable.getD raw default) :=
  (ordinal_translation mOrd 0 2 3 ⟨2, 3, 0, 0, 1⟩ (by decide) (by decide)
    (by decide) (by decide)).2 (by decide)

/-- C8 counterexample.  For a multi-sector block entry with
`fileSize = 2^32 - 1` and 4096-byte sectors, the `uint32` sector-count
computation overflows to zero, so the sum of the sector unpacked lengths is
0, not `fileSize`. -/
theorem unpacked_sum_overflow :
    blocksCountOf mOvf beOvf = 0 ∧
    unpackedTotal mOvf beOvf = 0 ∧
    unpackedTotal mOvf beOvf ≠ beOvf.fileSize := by decide

/-- C8 (amended).  Whenever the sector size is non-zero and
`fileSize + blockSize` does not exceed `2^32` (so the `uint32` ceiling
computation cannot wrap), the sum of the computed unpacked sector lengths
equals `fileSize` - for single-unit files and for multi-sector layouts
alike. -/
theorem unpacked_sum_eq_file_size (m : MPQState) (be : BlockEntry)
    (hbs : m.blockSize ≠ 0) (hov : be.fileSize + m.blockSize ≤ U32) :
    unpackedTotal m be = be.fileSize := by
  by_cases hsingle : be.flags &&& beFlagSingle ≠ 0
  · have hbc : blocksCountOf m be = 1 := by
      unfold blocksCountOf
      rw [if_pos hsingle]
    unfold unpackedTotal
    rw [hbc, show List.range 1 = [0] from rfl]
    simp [unpackedSizeAt, hsingle]
  · have hov2 : be.fileSize + m.blockSize ≤ 4294967296 := hov
    have hbsPos : 0 < m.blockSize := Nat.pos_of_ne_zero hbs
    have hA : u32sub (u32add be.fileSize m.blockSize) 1 =
        be.fileSize + m.blockSize - 1 := by
      unfold u32sub u32add U32
      omega
    have hbc : blocksCountOf m be =
        (be.fileSize + m.blockSize - 1) / m.blockSize := by
      unfold blocksCountOf
      rw [if_neg hsingle, hA]
    rcases Nat.eq_zero_or_pos be.fileSize with hfz | hfp
    · have hbc0 : blocksCountOf m be = 0 := by
        rw [hbc, hfz]
        exact Nat.div_eq_of_lt (by omega)
      unfold unpackedTotal
      rw [hbc0, hfz]
      rfl
    · have hbc1 : 1 ≤ blocksCountOf m be := by
        rw [hbc, Nat.le_div_iff_mul_le hbsPos]
        omega
      obtain ⟨n, hn⟩ := Nat.exists_eq_add_of_le hbc1
      rw [Nat.add_comm 1 n] at hn
      have hmulle : (be.fileSize + m.blockSize - 1) / m.blockSize * m.blockSize ≤
          be.fileSize + m.blockSize - 1 := Nat.div_mul_le_self _ _
      rw [← hbc, hn] at hmulle
      have hbsn : m.blockSize * n ≤ be.fileSize - 1 := by
        have hcm : (n + 1) * m.blockSize =
            m.blockSize * n + m.blockSize := by ring
        rw [hcm] at hmulle
        omega
    
      unfold unpackedTotal
      rw [hn, List.range_succ, List.map_append, List.sum_append]
      have hmap : (List.range n).map (unpackedSizeAt m be (n + 1)) =
          List.replicate n m.blockSize := by
        apply List.eq_replicate_iff.mpr
        refine ⟨by simp, ?_⟩
        intro b hb
        obtain ⟨k, hk, hfk⟩ := List.mem_map.mp hb
        have hkn : k < n := List.mem_range.mp hk
        rw [← hfk]
        unfold unpackedSizeAt
        rw [if_neg hsingle, if_pos (by omega)]
      have hlast : unpackedSizeAt m be (n + 1) n =
          be.fileSize - m.blockSize * n := by
        unfold unpackedSizeAt
        rw [if_neg hsingle, if_neg (by omega)]
        unfold u32sub u32mul U32
        omega
      rw [hmap, List.sum_replicate, smul_eq_mul]
      simp only [List.map_cons, List.map_nil, List.sum_cons, List.sum_nil, hlast]
      have hcomm : n * m.blockSize = m.blockSize * n := Nat.mul_comm n m.blockSize
      omega

/-- Witness for C8: a five-byte file over four-byte sectors has sector
unpacked lengths summing to its `fileSize`. -/
theorem unpacked_sum_eq_file_size_witness :
    unpackedTotal mSum beSum = beSum.fileSize ∧ beSum.fileSize = 5 :=
  ⟨unpacked_sum_eq_file_size mSum beSum (by decide) (by decide), rfl⟩

/-- A set PKWare bit implies a set compressed mask (the PKWare bit lies
inside the compressed mask). -/
theorem pk_implies_compressed {f : Nat} (h : f &&& beFlagPKWare ≠ 0) :
    f &&& beFlagCompressed ≠ 0 := by
  intro h0
  apply h
  have hand : beFlagCompressed &&& beFlagPKWare = beFlagPKWare := by decide
  have heq : f &&& beFlagPKWare = f &&& beFlagCompressed &&& beFlagPKWare := by
    rw [Nat.and_assoc, hand]
  rw [heq, h0, Nat.zero_and]

/-- The first iteration of the sector loop fails with `ErrInvalidArchive`
when the block is encrypted or PKWare-imploded (without multi-codec
compression): the sector read either falls short, or the per-sector
encryption / implosion checkpoints reject it. -/
theorem assembleLoop_first_invalid (dm : Nat → List Nat → Option (List Nat))
    (m : MPQState) (be : BlockEntry) (pbo : List Nat) (base bc r ci : Nat)
    (content : List Nat) (inp : Input)
    (hflag : be.flags &&& beFlagEncrypted ≠ 0 ∨
      (be.flags &&& beFlagPKWare ≠ 0 ∧ be.flags &&& beFlagCompressedMulti = 0))
    (hk : bc - (r + 1) + 1 < pbo.length) :
    (assembleLoop dm m be pbo base bc (r + 1) ci content inp).1 =
      .failed .invalidArchive := by
  unfold assembleLoop
  dsimp only
  obtain ⟨cur, hcur⟩ : ∃ c, pbo.get? (bc - (r + 1)) = some c :=
    ⟨_, List.get?_eq_get (by omega)⟩
  obtain ⟨nxt, hnxt⟩ : ∃ c, pbo.get? (bc - (r + 1) + 1) = some c :=
    ⟨_, List.get?_eq_get hk⟩
  rw [hcur, hnxt]
  dsimp only
  cases hread : readFull (seekTo inp (base + cur)) (u32sub nxt cur) with
  | none => rfl
  | some p =>
      obtain ⟨inBuffer, inp2⟩ := p
      dsimp only
      rcases hflag with henc | ⟨hpk, hnm⟩
      · rw [if_pos henc]
      · by_cases henc2 : be.flags &&& beFlagEncrypted ≠ 0
        · rw [if_pos henc2]
        · rw [if_neg henc2, if_neg (not_ne_iff.mpr hnm), if_pos hpk]

/-- C2 counterexample.  A stored file whose payload is encrypted makes
`FileByHash` fail with `ErrInvalidArchive` itself - the package defines no
distinct not-implemented error kind. -/
theorem encrypted_file_error_is_invalid_archive :
    resolve mEnc 0 2 3 = .found 0 beEnc ∧
    beEnc.flags &&& beFlagEncrypted ≠ 0 ∧
    (fileByHash dmZero mEnc ⟨[1, 2, 3, 4], 0⟩ 0 2 3).1 =
      .failed .invalidArchive := by decide

/-- C2 (amended).  Whenever the fingerprint resolves to a block whose
storage requires payload decryption, decryption of the packed-offset table,
or PKWare implosion (and the sector layout is non-degenerate: at least one
sector, no `uint32` wrap of the offset-table length, a well-defined offset
base), `FileByHash` fails with `ErrInvalidArchive` - not with a distinct
not-implemented error kind, which the package does not define. -/
theorem unsupported_storage_invalid_archive
    (dm : Nat → List Nat → Option (List Nat)) (m : MPQState) (inp : Input)
    (h1 h2 h3 bei : Nat) (be : BlockEntry) (base : Nat)
    (hres : resolve m h1 h2 h3 = .found bei be)
    (hbase : extBase m bei be = some base)
    (hflag : be.flags &&& beFlagEncrypted ≠ 0 ∨
      (be.flags &&& beFlagPKWare ≠ 0 ∧ be.flags &&& beFlagCompressedMulti = 0))
    (hbc1 : 1 ≤ blocksCountOf m be)
    (hbc2 : blocksCountOf m be + 2 < U32) :
    (fileByHash dm m inp h1 h2 h3).1 = .failed .invalidArchive := by
  have hguard : ¬(be.flags &&& beFlagSingle = 0 ∧ m.blockSize = 0) := by
    rintro ⟨hs0, hb0⟩
    unfold blocksCountOf at hbc1
    rw [if_neg (not_ne_iff.mpr hs0), hb0, Nat.div_zero] at hbc1
    exact Nat.not_succ_le_zero 0 hbc1
  have hbc2n : blocksCountOf m be + 2 < 4294967296 := hbc2
  have hU1 : u32add (blocksCountOf m be) 1 = blocksCountOf m be + 1 := by
    unfold u32add U32
    omega
  have htemp : pboLen m be = blocksCountOf m be + 1 ∨
      pboLen m be = blocksCountOf m be + 2 := by
    unfold pboLen
    dsimp only
    by_cases hx : be.flags &&& beFlagExtra ≠ 0
    · right
      rw [if_pos hx, hU1]
      unfold u32add U32
      omega
    · left
      rw [if_neg hx]
      exact hU1
  have htempgt : blocksCountOf m be < pboLen m be := by
    rcases htemp with h | h <;> omega
  have htemp2 : 2 ≤ pboLen m be := by
    rcases htemp with h | h <;> omega
  unfold fileByHash
  rw [hres]
  dsimp only
  rw [hbase]
  dsimp only
  rw [if_neg hguard]
  try dsimp only
  by_cases hcomp : be.flags &&& beFlagCompressed ≠ 0 ∧ be.flags &&& beFlagSingle = 0
  · rw [if_pos hcomp]
    try dsimp only
    cases hread : readFull (seekTo inp base) (pboLen m be * 4) with
    | none => rfl
    | some p =>
        obtain ⟨bs2, inp2⟩ := p
        try dsimp only
        by_cases henc : be.flags &&& beFlagEncrypted ≠ 0
        · rw [if_pos henc]
        · rw [if_neg henc]
          rcases hflag with h | ⟨hpk, hnm⟩
          · exact absurd h henc
          · obtain ⟨r, hr⟩ := Nat.exists_eq_add_of_le hbc1
            rw [Nat.add_comm 1 r] at hr
            have hlen : (bytesToWords bs2).length = pboLen m be := by
              rw [bytesToWords_length, readFull_length hread]
              omega
            rw [hr]
            apply assembleLoop_first_invalid
            · exact Or.inr ⟨hpk, hnm⟩
            · rw [hlen]
              omega
  · rw [if_neg hcomp]
    try dsimp only
    by_cases hs : be.flags &&& beFlagSingle = 0
    · rw [if_pos hs]
      have henc : be.flags &&& beFlagEncrypted ≠ 0 := by
        rcases hflag with h | ⟨hpk, _⟩
        · exact h
        · exact absurd ⟨pk_implies_compressed hpk, hs⟩ hcomp
      rw [if_neg (not_le.mpr htempgt)]
      obtain ⟨r, hr⟩ := Nat.exists_eq_add_of_le hbc1
      rw [Nat.add_comm 1 r] at hr
      rw [hr]
      apply assembleLoop_first_invalid
      · exact Or.inl henc
      · rw [synthPboMulti_length m be (r + 1) (pboLen m be) (hr ▸ htempgt)]
        omega
    · rw [if_neg hs]
      have hbcone : blocksCountOf m be = 1 := by
        unfold blocksCountOf
        rw [if_pos hs]
      rw [hbcone]
      have hone : (1 : Nat) = 0 + 1 := rfl
      rw [hone]
      apply assembleLoop_first_invalid
      · exact hflag
      · rw [synthPboSingle_length be (pboLen m be) htemp2]
        omega

/-- Witness for C2: a PKWare-imploded single-unit file yields
`ErrInvalidArchive`. -/
theorem unsupported_storage_invalid_archive_witness :
    (fileByHash dmZero mPk ⟨[1, 2, 3, 4], 0⟩ 0 2 3).1 = .failed .invalidArchive :=
  unsupported_storage_invalid_archive dmZero mPk ⟨[1, 2, 3, 4], 0⟩ 0 2 3 0 bePk 0
    (by decide) (by decide) (Or.inr ⟨by decide, by decide⟩) (by decide) (by decide)

end Mpq
